import Mathlib

/-!
Verification of the tiempodb storage engine against its specification.

The definitions below are shallow embeddings of the Rust sources:
`src/wal.rs` (framed write-ahead log writer and corruption-tolerant
reader), `src/storage.rs` (active/snapshot two-tier in-memory store),
`src/partition.rs` (partition manager roll/recover protocol) and
`src/protocol.rs` (line-protocol parser).  Machine integers are modelled
as `Nat` with explicit `% 2^w` where the source relies on wrapping or
truncating casts; files are lists of bytes; the filesystem is an
association list from file names to contents.
-/

set_option maxRecDepth 16000

namespace TiempoDB

/-! ## WAL byte-level model (`src/wal.rs`)

A file is a `List Nat` of bytes.  `Wal::write` frames a block as
`u64 length LE | u32 crc32 LE | payload`; `crc32` is the IEEE CRC-32
computed by the `crc32fast` crate (reflected, polynomial `0xEDB88320`,
initial value and final xor `0xFFFFFFFF`). -/

/-- The `k` little-endian bytes of `n` (the low `8*k` bits, as written by
`to_le_bytes` after the `as u64` / `u32` casts in `Wal::write`). -/
def leBytes : Nat → Nat → List Nat
  | 0, _ => []
  | k + 1, n => n % 256 :: leBytes k (n / 256)

/-- Little-endian decoding, as done by `usize::from_le_bytes` /
`u32::from_le_bytes` in `WalBlockIterator::_consume_next`. -/
def decodeLE : List Nat → Nat
  | [] => 0
  | b :: bs => b + 256 * decodeLE bs

/-- One bit-round of the reflected CRC-32 update. -/
def crc32Round (c : Nat) : Nat :=
  if c % 2 = 1 then (c / 2) ^^^ 0xEDB88320 else c / 2

/-- Process one input byte of the CRC-32 state (eight bit-rounds). -/
def crc32Byte (c b : Nat) : Nat :=
  crc32Round (crc32Round (crc32Round (crc32Round
    (crc32Round (crc32Round (crc32Round (crc32Round (c ^^^ b % 256))))))))

/-- Model of `Wal::crc32`: IEEE CRC-32 of a byte string (as `crc32fast` computes
it). -/
def crc32 (block : List Nat) : Nat :=
  (block.foldl crc32Byte 0xFFFFFFFF) ^^^ 0xFFFFFFFF

/-- The frame written by `Wal::write` for one block. -/
def encodeBlock (b : List Nat) : List Nat :=
  leBytes 8 b.length ++ leBytes 4 (crc32 b) ++ b

/-- The file produced by a sequence of `Wal::write` calls on an empty
live segment. -/
def encodeWal : List (List Nat) → List Nat
  | [] => []
  | b :: bs => encodeBlock b ++ encodeWal bs

/-- Errors surfaced to the consumer by `WalBlockIterator::_consume_next`:
the `InvalidData` "block_size is corrupted" error, and the
`UnexpectedEof` error of the payload `read_exact`. -/
inductive WalErr where
  | corruptHeader : WalErr
  | eofPayload : WalErr
deriving DecidableEq, Repr

/-- Repeated `WalBlockIterator::_consume_next` from the suffix `rem` of a
file of total size `total`: yields the list of delivered payloads and the
error delivered to the consumer, if any.

Mirrors `src/wal.rs` lines 184-254: a header `read_exact` hitting EOF
ends iteration silently; a declared length larger than the *total* file
size surfaces the corrupt-header error; a payload `read_exact` hitting
EOF surfaces that error; a CRC mismatch skips the block and retries at
the current offset. -/
def consumeAll (total : Nat) (rem : List Nat) : List (List Nat) × Option WalErr :=
  if h : rem.length < 12 then ([], none)
  else
    let blockSize := decodeLE (rem.take 8)
    let expectedCrc := decodeLE ((rem.drop 8).take 4)
    if total < blockSize then ([], some .corruptHeader)
    else if hp : (rem.drop 12).length < blockSize then ([], some .eofPayload)
    else if crc32 ((rem.drop 12).take blockSize) ≠ expectedCrc then
      consumeAll total (rem.drop (12 + blockSize))
    else
      ((rem.drop 12).take blockSize :: (consumeAll total (rem.drop (12 + blockSize))).1,
        (consumeAll total (rem.drop (12 + blockSize))).2)
termination_by rem.length
decreasing_by
  all_goals simp only [List.length_drop]; omega

/-- Full replay of a WAL file (`WalBlockReader::read` + iteration). -/
def replayWal (file : List Nat) : List (List Nat) × Option WalErr :=
  consumeAll file.length file

@[simp] theorem length_leBytes (k n : Nat) : (leBytes k n).length = k := by
  induction k generalizing n with
  | zero => rfl
  | succ k ih => simp [leBytes, ih]

theorem decodeLE_leBytes (k n : Nat) : decodeLE (leBytes k n) = n % 256 ^ k := by
  induction k generalizing n with
  | zero => simp [leBytes, decodeLE, Nat.mod_one]
  | succ k ih =>
      simp only [leBytes, decodeLE, ih]
      rw [pow_succ', Nat.mod_mul]

theorem crc32Round_lt (c : Nat) (h : c < 2 ^ 32) : crc32Round c < 2 ^ 32 := by
  unfold crc32Round
  split
  · exact Nat.xor_lt_two_pow (by omega) (by norm_num)
  · omega

theorem crc32Byte_lt (c b : Nat) (h : c < 2 ^ 32) : crc32Byte c b < 2 ^ 32 := by
  unfold crc32Byte
  have hstart : c ^^^ b % 256 < 2 ^ 32 :=
    Nat.xor_lt_two_pow h (lt_of_lt_of_le (Nat.mod_lt _ (by norm_num)) (by norm_num))
  exact crc32Round_lt _ (crc32Round_lt _ (crc32Round_lt _ (crc32Round_lt _
    (crc32Round_lt _ (crc32Round_lt _ (crc32Round_lt _ (crc32Round_lt _ hstart)))))))

theorem crc32_lt (block : List Nat) : crc32 block < 2 ^ 32 := by
  unfold crc32
  have : block.foldl crc32Byte 0xFFFFFFFF < 2 ^ 32 := by
    have h : ∀ (l : List Nat) (c : Nat), c < 2 ^ 32 → l.foldl crc32Byte c < 2 ^ 32 := by
      intro l
      induction l with
      | nil => intro c hc; simpa using hc
      | cons x xs ih => intro c hc; exact ih _ (crc32Byte_lt _ _ hc)
    exact h block _ (by norm_num)
  exact Nat.xor_lt_two_pow this (by norm_num)

@[simp] theorem length_encodeBlock (b : List Nat) :
    (encodeBlock b).length = 12 + b.length := by
  simp [encodeBlock]; omega

theorem consumeAll_small (total : Nat) (rem : List Nat) (h : rem.length < 12) :
    consumeAll total rem = ([], none) := by
  rw [consumeAll]
  simp [h]

theorem consumeAll_step (total : Nat) (rem : List Nat) (h : ¬ rem.length < 12) :
    consumeAll total rem =
      if total < decodeLE (rem.take 8) then ([], some .corruptHeader)
      else if (rem.drop 12).length < decodeLE (rem.take 8) then ([], some .eofPayload)
      else if crc32 ((rem.drop 12).take (decodeLE (rem.take 8))) ≠ decodeLE ((rem.drop 8).take 4) then
        consumeAll total (rem.drop (12 + decodeLE (rem.take 8)))
      else
        ((rem.drop 12).take (decodeLE (rem.take 8))
            :: (consumeAll total (rem.drop (12 + decodeLE (rem.take 8)))).1,
          (consumeAll total (rem.drop (12 + decodeLE (rem.take 8)))).2) := by
  conv => lhs; rw [consumeAll]
  simp [h]

/-- Reading one framed block `len | c | p` at the head of the remaining
input: with an in-bounds declared length, the block is delivered when the
stored CRC matches the payload's CRC32 and skipped otherwise. -/
theorem consumeAll_frame (total len c : Nat) (p rest : List Nat)
    (hlp : p.length = len) (h64 : len < 2 ^ 64) (hc : c < 2 ^ 32)
    (htot : len ≤ total) :
    consumeAll total ((leBytes 8 len ++ leBytes 4 c ++ p) ++ rest)
      = if crc32 p ≠ c then consumeAll total rest
        else (p :: (consumeAll total rest).1, (consumeAll total rest).2) := by
  set rem : List Nat := (leBytes 8 len ++ leBytes 4 c ++ p) ++ rest with hrem
  have hlen : rem.length = 12 + len + rest.length := by
    simp [hrem, hlp]; omega
  have htake8 : rem.take 8 = leBytes 8 len := by
    rw [hrem, List.append_assoc, List.append_assoc]
    exact List.take_left' (length_leBytes 8 len)
  have hdrop8 : rem.drop 8 = leBytes 4 c ++ (p ++ rest) := by
    rw [hrem, List.append_assoc, List.append_assoc]
    exact List.drop_left' (length_leBytes 8 len)
  have htake4 : (rem.drop 8).take 4 = leBytes 4 c := by
    rw [hdrop8]
    exact List.take_left' (length_leBytes 4 c)
  have hdrop12 : rem.drop 12 = p ++ rest := by
    rw [hrem, List.append_assoc]
    have h12 : (leBytes 8 len ++ leBytes 4 c).length = 12 := by simp
    exact List.drop_left' h12
  have hdroplen : rem.drop (12 + len) = rest := by
    rw [hrem]
    have h12l : (leBytes 8 len ++ leBytes 4 c ++ p).length = 12 + len := by
      simp [hlp]; omega
    exact List.drop_left' h12l
  have hbs : decodeLE (rem.take 8) = len := by
    rw [htake8, decodeLE_leBytes]
    exact Nat.mod_eq_of_lt (by simpa using h64)
  have hcrc : decodeLE ((rem.drop 8).take 4) = c := by
    rw [htake4, decodeLE_leBytes]
    exact Nat.mod_eq_of_lt (by simpa using hc)
  have hpay : (rem.drop 12).take len = p := by
    rw [hdrop12]
    exact List.take_left' hlp
  rw [consumeAll_step total rem (by omega)]
  rw [hbs, hcrc, hpay, hdroplen]
  have hnotcorrupt : ¬ total < len := by omega
  have hnoteof : ¬ (rem.drop 12).length < len := by
    rw [hdrop12]; simp [hlp]
  rw [if_neg hnotcorrupt, if_neg hnoteof]

/-- Replaying a prefix of honestly written frames delivers exactly those
blocks and continues with the rest of the file. -/
theorem consumeAll_encodeWal_append (bs : List (List Nat)) (rest : List Nat) (total : Nat)
    (h64 : ∀ b ∈ bs, b.length < 2 ^ 64)
    (hle : (encodeWal bs).length + rest.length ≤ total) :
    consumeAll total (encodeWal bs ++ rest)
      = (bs ++ (consumeAll total rest).1, (consumeAll total rest).2) := by
  induction bs with
  | nil => simp [encodeWal]
  | cons b bs ih =>
      have hb64 : b.length < 2 ^ 64 := h64 b (by simp)
      have hlen : (encodeWal (b :: bs)).length
          = 12 + b.length + (encodeWal bs).length := by
        simp only [encodeWal, List.length_append, length_encodeBlock]
        try omega
      have hassoc : encodeWal (b :: bs) ++ rest
          = (leBytes 8 b.length ++ leBytes 4 (crc32 b) ++ b) ++ (encodeWal bs ++ rest) := by
        simp [encodeWal, encodeBlock, List.append_assoc]
      rw [hassoc,
        consumeAll_frame total b.length (crc32 b) b (encodeWal bs ++ rest) rfl hb64
          (crc32_lt b) (by omega),
        ih (fun x hx => h64 x (List.mem_cons_of_mem _ hx)) (by omega)]
      simp

/-- Replaying exactly the honestly written frames delivers all blocks in
order without error. -/
theorem consumeAll_encodeWal (bs : List (List Nat)) (total : Nat)
    (h64 : ∀ b ∈ bs, b.length < 2 ^ 64)
    (hle : (encodeWal bs).length ≤ total) :
    consumeAll total (encodeWal bs) = (bs, none) := by
  have h := consumeAll_encodeWal_append bs [] total h64 (by simpa using hle)
  rw [List.append_nil] at h
  rw [h, consumeAll_small total [] (by simp)]
  simp

/-- C2: for every finite sequence of byte blocks appended with
`Wal::write` (followed by `flush_and_sync`), iterating the resulting file
with `WalBlockIterator` yields exactly the same sequence of payload byte
strings in the same order. -/
theorem wal_write_replay_roundtrip (bs : List (List Nat))
    (h64 : ∀ b ∈ bs, b.length < 2 ^ 64)
    (hbytes : ∀ b ∈ bs, ∀ x ∈ b, x < 256) :
    replayWal (encodeWal bs) = (bs, none) :=
  consumeAll_encodeWal bs (encodeWal bs).length h64 le_rfl

/-- Witness for C2 at a concrete two-block WAL. -/
theorem wal_write_replay_roundtrip_witness :
    replayWal (encodeWal [[1, 2, 3], [4]]) = ([[1, 2, 3], [4]], none) :=
  wal_write_replay_roundtrip [[1, 2, 3], [4]] (by decide) (by decide)

/-- C3 (amended): mutating one block's payload or stored CRC (length
field intact) makes replay deliver every other block in order and skip
the mutated one, provided the stored CRC differs from the CRC32 of the
(possibly mutated) payload. -/
theorem wal_single_mutation_skipped (pre post : List (List Nat)) (orig p2 : List Nat) (c2 : Nat)
    (h64 : ∀ b ∈ pre ++ orig :: post, b.length < 2 ^ 64)
    (hlen : p2.length = orig.length)
    (hc2 : c2 < 2 ^ 32)
    (hmut : p2 ≠ orig ∨ c2 ≠ crc32 orig)
    (hdetect : crc32 p2 ≠ c2) :
    replayWal (encodeWal pre
        ++ ((leBytes 8 orig.length ++ leBytes 4 c2 ++ p2) ++ encodeWal post))
      = (pre ++ post, none) := by
  have hpre64 : ∀ b ∈ pre, b.length < 2 ^ 64 := fun b hb => h64 b (by simp [hb])
  have hpost64 : ∀ b ∈ post, b.length < 2 ^ 64 := fun b hb => h64 b (by simp [hb])
  have ho64 : orig.length < 2 ^ 64 := h64 orig (by simp)
  rw [replayWal]
  rw [consumeAll_encodeWal_append pre
    ((leBytes 8 orig.length ++ leBytes 4 c2 ++ p2) ++ encodeWal post) _ hpre64
    (by simp only [List.length_append, length_leBytes, hlen]; omega)]
  rw [consumeAll_frame _ orig.length c2 p2 (encodeWal post) hlen ho64 hc2
    (by simp only [List.length_append, length_leBytes, hlen]; omega)]
  rw [if_pos hdetect]
  rw [consumeAll_encodeWal post _ hpost64
    (by simp only [List.length_append, length_leBytes, hlen]; omega)]

/-- Witness for C3 (amended): a zeroed CRC on the middle of three blocks
makes replay yield the first and third block only. -/
theorem wal_single_mutation_skipped_witness :
    replayWal (encodeWal [[10, 11]]
        ++ ((leBytes 8 ([20, 21] : List Nat).length ++ leBytes 4 0 ++ [20, 21])
          ++ encodeWal [[30]]))
      = ([[10, 11]] ++ [[30]], none) :=
  wal_single_mutation_skipped [[10, 11]] [[30]] [20, 21] [20, 21] 0
    (by decide) rfl (by norm_num) (Or.inr (by decide)) (by decide)

/-- Counterexample to C3 as stated: `crc32` has collisions, so a payload
mutation can leave the stored CRC valid for the new payload.  The written
block `[214,247,32,56,130]` is mutated in place to `[239,255,168,61,221]`
(same length, stored CRC and length field untouched); replay then
delivers the mutated payload instead of skipping the block. -/
theorem wal_single_mutation_skipped_cex :
    ([239, 255, 168, 61, 221] : List Nat) ≠ [214, 247, 32, 56, 130] ∧
    ([239, 255, 168, 61, 221] : List Nat).length = ([214, 247, 32, 56, 130] : List Nat).length ∧
    crc32 [239, 255, 168, 61, 221] = crc32 [214, 247, 32, 56, 130] ∧
    replayWal (leBytes 8 ([214, 247, 32, 56, 130] : List Nat).length
        ++ leBytes 4 (crc32 [214, 247, 32, 56, 130]) ++ [239, 255, 168, 61, 221])
      = ([[239, 255, 168, 61, 221]], none) := by
  refine ⟨by decide, by decide, by decide, ?_⟩
  have hc : crc32 ([239, 255, 168, 61, 221] : List Nat) = crc32 [214, 247, 32, 56, 130] := by
    decide
  rw [replayWal]
  have hlen : (leBytes 8 ([214, 247, 32, 56, 130] : List Nat).length
      ++ leBytes 4 (crc32 [214, 247, 32, 56, 130]) ++ [239, 255, 168, 61, 221]).length = 17 := by
    simp
  rw [hlen]
  have h := consumeAll_frame 17 ([214, 247, 32, 56, 130] : List Nat).length
    (crc32 [214, 247, 32, 56, 130]) [239, 255, 168, 61, 221] [] (by decide) (by decide)
    (crc32_lt _) (by decide)
  rw [List.append_nil] at h
  rw [h, if_neg (not_not_intro hc), consumeAll_small 17 [] (by simp)]

/-- C9 (amended): a declared block length larger than the *total* file
size surfaces the corrupt-block-header error and stops iteration; a
declared length that only exceeds the bytes remaining after the header
surfaces the payload read's unexpected-EOF error instead (iteration also
stops). -/
theorem wal_corrupt_header_error (bs : List (List Nat)) (rest : List Nat)
    (h64 : ∀ b ∈ bs, b.length < 2 ^ 64)
    (hrest : 12 ≤ rest.length) :
    ((encodeWal bs ++ rest).length < decodeLE (rest.take 8) →
        replayWal (encodeWal bs ++ rest) = (bs, some WalErr.corruptHeader)) ∧
    (decodeLE (rest.take 8) ≤ (encodeWal bs ++ rest).length →
        rest.length - 12 < decodeLE (rest.take 8) →
        replayWal (encodeWal bs ++ rest) = (bs, some WalErr.eofPayload)) := by
  have happ := consumeAll_encodeWal_append bs rest (encodeWal bs ++ rest).length h64
    (by simp)
  constructor
  · intro hbig
    rw [replayWal, happ, consumeAll_step _ rest (by omega), if_pos hbig]
    simp
  · intro hle2 hbig2
    rw [replayWal, happ, consumeAll_step _ rest (by omega), if_neg (by omega),
      if_pos (by simp only [List.length_drop]; omega)]
    simp

/-- Witness for C9 (amended): both error outcomes at concrete files. -/
theorem wal_corrupt_header_error_witness :
    (replayWal (encodeWal [] ++ (leBytes 8 100 ++ leBytes 4 0))
        = ([], some WalErr.corruptHeader)) ∧
    (replayWal (encodeWal [] ++ (leBytes 8 5 ++ leBytes 4 0))
        = ([], some WalErr.eofPayload)) :=
  ⟨(wal_corrupt_header_error [] (leBytes 8 100 ++ leBytes 4 0) (by decide) (by decide)).1
      (by decide),
    (wal_corrupt_header_error [] (leBytes 8 5 ++ leBytes 4 0) (by decide) (by decide)).2
      (by decide) (by decide)⟩

/-- Counterexample to C9 as stated: a second frame declares length 9
while only 0 bytes remain after its header (the total file size is 27, so
the header sanity check `file_size < block_size` does not fire); the
reader surfaces the unexpected-EOF read error, not the corrupt-block-
header error the claim requires. -/
theorem wal_corrupt_header_error_cex :
    decodeLE ((leBytes 8 9 ++ leBytes 4 0).take 8) = 9 ∧
    ((leBytes 8 9 ++ leBytes 4 0 : List Nat).drop 12).length = 0 ∧
    replayWal (encodeBlock [97, 98, 99] ++ (leBytes 8 9 ++ leBytes 4 0))
      = ([[97, 98, 99]], some WalErr.eofPayload) ∧
    WalErr.eofPayload ≠ WalErr.corruptHeader := by
  refine ⟨by decide, by decide, ?_, by decide⟩
  rw [replayWal]
  have hlen : (encodeBlock [97, 98, 99] ++ (leBytes 8 9 ++ leBytes 4 0) : List Nat).length
      = 27 := by simp [encodeBlock]
  rw [hlen]
  have h := consumeAll_frame 27 ([97, 98, 99] : List Nat).length (crc32 [97, 98, 99])
    [97, 98, 99] (leBytes 8 9 ++ leBytes 4 0) rfl (by decide) (crc32_lt _) (by decide)
  rw [show encodeBlock [97, 98, 99] ++ (leBytes 8 9 ++ leBytes 4 0)
      = (leBytes 8 ([97, 98, 99] : List Nat).length ++ leBytes 4 (crc32 [97, 98, 99])
          ++ [97, 98, 99]) ++ (leBytes 8 9 ++ leBytes 4 0) from by simp [encodeBlock]]
  rw [h, if_neg (not_not_intro rfl)]
  rw [consumeAll_step 27 (leBytes 8 9 ++ leBytes 4 0) (by simp)]
  rw [if_neg (by simp [decodeLE_leBytes]), if_pos (by simp [decodeLE_leBytes])]

/-! ## In-memory store (`src/storage.rs`)

`HashMap<Rc<str>, Vec<DataPoint>>` is modelled as an association list
with at most one binding per key (`alInsert` replaces in place);
`sort_by_key` is modelled by a stable insertion sort. -/

/-- Model of `DataPoint` (src/storage.rs): series name, u64 timestamp, i64 value. -/
structure DataPoint where
  name : String
  timestamp : Nat
  value : Int
deriving DecidableEq, Repr

/-- The `HashMap<Rc<str>, Vec<DataPoint>>` underlying both tiers. -/
abbrev MetricsMap := List (String × List DataPoint)

/-- Model of `HashMap::get` / `get_mut`: the binding of a key, if any. -/
def alGet : MetricsMap → String → Option (List DataPoint)
  | [], _ => none
  | e :: es, k => if e.1 = k then some e.2 else alGet es k

/-- Model of `HashMap::insert`: replace an existing binding or add a new one. -/
def alInsert : MetricsMap → String → List DataPoint → MetricsMap
  | [], k, v => [(k, v)]
  | e :: es, k, v => if e.1 = k then (k, v) :: es else e :: alInsert es k v

/-- Model of `Vec::push` through the `&mut` reference to the binding of `k`. -/
def alPush (m : MetricsMap) (k : String) (p : DataPoint) : MetricsMap :=
  m.map (fun e => if e.1 = k then (e.1, e.2 ++ [p]) else e)

/-- Model of `create_for_key` (src/storage.rs line 134): unconditionally inserts
an empty vector for the key (overwriting any existing binding) and hands
back the new binding. -/
def create_for_key (m : MetricsMap) (k : String) : MetricsMap := alInsert m k []

/-- Model of `Storage::add` for `HashMap`: append to the existing vector or insert
a singleton. -/
def add (m : MetricsMap) (p : DataPoint) : MetricsMap :=
  match alGet m p.name with
  | some _ => alPush m p.name p
  | none => alInsert m p.name [p]

/-- Loop body of `Storage::add_bulk` for `HashMap` (src/storage.rs lines
86-94): push while the name matches `curr`; on a name change call
`create_for_key` (which wipes any existing binding) and push there. -/
def addBulkGo (m : MetricsMap) (curr : String) : List DataPoint → MetricsMap
  | [] => m
  | p :: rest =>
      if p.name = curr then addBulkGo (alPush m curr p) curr rest
      else addBulkGo (alPush (create_for_key m p.name) p.name p) p.name rest

/-- Model of `Storage::add_bulk` for `HashMap` (src/storage.rs lines 75-95). -/
def add_bulk (m : MetricsMap) (points : List DataPoint) : MetricsMap :=
  match points with
  | [] => m
  | p0 :: _ =>
      let m0 := match alGet m p0.name with
        | some _ => m
        | none => create_for_key m p0.name
      addBulkGo m0 p0.name points

/-- Insert a point into a timestamp-sorted list, after all points with a
strictly smaller or equal timestamp (stability of `sort_by_key`). -/
def insertPoint (p : DataPoint) : List DataPoint → List DataPoint
  | [] => [p]
  | q :: qs => if p.timestamp < q.timestamp then p :: q :: qs else q :: insertPoint p qs

/-- Model of `result.sort_by_key(|metric| metric.timestamp)`: a stable sort by
timestamp. -/
def sortPoints : List DataPoint → List DataPoint
  | [] => []
  | p :: ps => insertPoint p (sortPoints ps)

/-- Model of `Storage::loadUnsafe` for `HashMap` (src/storage.rs lines 97-106):
the series' points sorted by timestamp, or empty for an absent key. -/
def loadUnsafe (m : MetricsMap) (k : String) : List DataPoint :=
  match alGet m k with
  | some data => sortPoints data
  | none => []

/-- Model of `MemoryStorage`: the map plus the running point count (`stat`). -/
structure MemoryStorage where
  map : MetricsMap
  count : Nat
deriving DecidableEq, Repr

/-- Model of `SnaphotableStorage`: the locked snapshot map and the active tier. -/
structure SnaphotableStorage where
  snapshot : MetricsMap
  active : MemoryStorage
deriving DecidableEq, Repr

/-- Model of `SnaphotableStorage::make_snapshot` (src/storage.rs lines 215-219):
`mem::take` the active storage and `mem::replace` the snapshot map with
the taken active map.  The previous snapshot map is dropped. -/
def make_snapshot (s : SnaphotableStorage) : SnaphotableStorage :=
  { snapshot := s.active.map, active := { map := [], count := 0 } }

/-- Model of `Storage::add_bulk` for `MemoryStorage` / `SnaphotableStorage`. -/
def SnaphotableStorage.add_bulk (s : SnaphotableStorage) (points : List DataPoint) :
    SnaphotableStorage :=
  { s with active := { map := TiempoDB.add_bulk s.active.map points,
                       count := s.active.count + points.length } }

/-- The merge loop of `SnaphotableStorage::loadUnsafe` (src/storage.rs
lines 390-425): pop the smaller head, preferring the left (snapshot)
side on ties. -/
def mergePoints : List DataPoint → List DataPoint → List DataPoint
  | [], r => r
  | l, [] => l
  | x :: xs, y :: ys =>
      if x.timestamp > y.timestamp then y :: mergePoints (x :: xs) ys
      else x :: mergePoints xs (y :: ys)
termination_by l r => l.length + r.length

/-- Model of `SnaphotableStorage::loadUnsafe` (src/storage.rs lines 374-426):
sorted snapshot points, sorted active points, short-circuiting on an
empty side, else the sorted merge. -/
def SnaphotableStorage.loadUnsafe (s : SnaphotableStorage) (metricName : String) :
    List DataPoint :=
  let snapshotVec := TiempoDB.loadUnsafe s.snapshot metricName
  let activeVec := TiempoDB.loadUnsafe s.active.map metricName
  if snapshotVec = [] then activeVec
  else if activeVec = [] then snapshotVec
  else mergePoints snapshotVec activeVec

/-- Timestamp-ascending order. -/
abbrev PtsSorted (l : List DataPoint) : Prop :=
  List.Pairwise (fun a b => a.timestamp ≤ b.timestamp) l

/-- The points stored for a key (empty for an absent key). -/
def ptsOf (m : MetricsMap) (k : String) : List DataPoint :=
  (alGet m k).getD []

theorem insertPoint_perm (p : DataPoint) (l : List DataPoint) :
    (insertPoint p l).Perm (p :: l) := by
  induction l with
  | nil => simp [insertPoint]
  | cons q qs ih =>
      rw [insertPoint]
      split
      · exact List.Perm.refl _
      · exact List.Perm.trans (List.Perm.cons q ih) (List.Perm.swap p q qs)

theorem sortPoints_perm (l : List DataPoint) : (sortPoints l).Perm l := by
  induction l with
  | nil => simp [sortPoints]
  | cons p ps ih =>
      exact List.Perm.trans (insertPoint_perm p (sortPoints ps)) (List.Perm.cons p ih)

theorem insertPoint_sorted (p : DataPoint) (l : List DataPoint) (h : PtsSorted l) :
    PtsSorted (insertPoint p l) := by
  induction l with
  | nil => simp [insertPoint, PtsSorted]
  | cons q qs ih =>
      unfold PtsSorted at h ⊢
      rw [List.pairwise_cons] at h
      rw [insertPoint]
      split
      · refine List.Pairwise.cons ?_ (List.Pairwise.cons h.1 h.2)
        intro a ha
        rcases List.mem_cons.1 ha with rfl | ha
        · omega
        · exact le_trans (by omega) (h.1 a ha)
      · refine List.Pairwise.cons ?_ (ih h.2)
        intro a ha
        rcases List.mem_cons.1 ((insertPoint_perm p qs).mem_iff.1 ha) with rfl | ha
        · omega
        · exact h.1 a ha

theorem sortPoints_sorted (l : List DataPoint) : PtsSorted (sortPoints l) := by
  induction l with
  | nil => exact List.Pairwise.nil
  | cons p ps ih => exact insertPoint_sorted p (sortPoints ps) ih

theorem loadUnsafe_sorted (m : MetricsMap) (k : String) :
    PtsSorted (loadUnsafe m k) := by
  unfold loadUnsafe
  cases alGet m k with
  | none => exact List.Pairwise.nil
  | some data => exact sortPoints_sorted data

theorem loadUnsafe_perm (m : MetricsMap) (k : String) :
    (loadUnsafe m k).Perm (ptsOf m k) := by
  unfold loadUnsafe ptsOf
  cases alGet m k with
  | none => simp
  | some data => simpa using sortPoints_perm data

theorem mergePoints_perm : ∀ (l r : List DataPoint), (mergePoints l r).Perm (l ++ r) := by
  intro l
  induction l with
  | nil => intro r; simp [mergePoints]
  | cons x xs ihl =>
      intro r
      induction r with
      | nil => simp [mergePoints]
      | cons y ys ihr =>
          rw [mergePoints]
          split
          · exact List.Perm.trans (List.Perm.cons y ihr) List.perm_middle.symm
          · simpa using List.Perm.cons x (ihl (y :: ys))

theorem mergePoints_sorted : ∀ (l r : List DataPoint),
    PtsSorted l → PtsSorted r → PtsSorted (mergePoints l r) := by
  intro l
  induction l with
  | nil => intro r _ hr; simpa [mergePoints] using hr
  | cons x xs ihl =>
      intro r
      induction r with
      | nil => intro hl _; simpa [mergePoints] using hl
      | cons y ys ihr =>
          intro hl hr
          unfold PtsSorted at hl hr ⊢
          rw [List.pairwise_cons] at hl hr
          rw [mergePoints]
          split
          · rename_i hxy
            refine List.Pairwise.cons ?_ (ihr (List.Pairwise.cons hl.1 hl.2) hr.2)
            intro a ha
            rcases List.mem_append.1 ((mergePoints_perm (x :: xs) ys).mem_iff.1 ha) with ha | ha
            · rcases List.mem_cons.1 ha with rfl | ha
              · omega
              · have := hl.1 a ha; omega
            · exact hr.1 a ha
          · rename_i hxy
            refine List.Pairwise.cons ?_ (ihl (y :: ys) hl.2 (List.Pairwise.cons hr.1 hr.2))
            intro a ha
            rcases List.mem_append.1 ((mergePoints_perm xs (y :: ys)).mem_iff.1 ha) with ha | ha
            · exact hl.1 a ha
            · rcases List.mem_cons.1 ha with rfl | ha
              · omega
              · have := hr.1 a ha; omega

/-- C1 (amended): `make_snapshot` leaves `active` empty and *replaces*
the snapshot map with the map that was active; points that were only in
the previous snapshot are dropped (there is no merge). -/
theorem make_snapshot_replaces (s : SnaphotableStorage) :
    (make_snapshot s).active.map = [] ∧ (make_snapshot s).active.count = 0 ∧
    (make_snapshot s).snapshot = s.active.map := by
  exact ⟨rfl, rfl, rfl⟩

/-- Counterexample to C1 as stated: a point `⟨"a", 1, 5⟩` present in the
snapshot before `make_snapshot` is absent from the snapshot afterwards
(with an empty active map), so the new snapshot does not contain the
points previously in the snapshot. -/
theorem make_snapshot_replaces_cex :
    alGet (SnaphotableStorage.mk [("a", [⟨"a", 1, 5⟩])] ⟨[], 0⟩).snapshot "a"
        = some [⟨"a", 1, 5⟩] ∧
    alGet (make_snapshot (SnaphotableStorage.mk [("a", [⟨"a", 1, 5⟩])] ⟨[], 0⟩)).snapshot "a"
        = none ∧
    (make_snapshot (SnaphotableStorage.mk [("a", [⟨"a", 1, 5⟩])] ⟨[], 0⟩)).active.map = [] := by
  refine ⟨rfl, rfl, rfl⟩

/-- C4 is a code bug: `add_bulk` reaches a series whose name differs from
the previous point's name through `create_for_key`, which overwrites the
existing binding with an empty vector.  Here the map holds `⟨"b", 1, 1⟩`
under `"b"`; after `add_bulk [⟨"a", 2, 2⟩, ⟨"b", 3, 3⟩]` the series
`"b"` holds only `⟨"b", 3, 3⟩` — the pre-existing point is lost, so the
claimed preservation fails. -/
theorem add_bulk_drops_points :
    add_bulk [("b", [⟨"b", 1, 1⟩])] [⟨"a", 2, 2⟩, ⟨"b", 3, 3⟩]
        = [("b", [⟨"b", 3, 3⟩]), ("a", [⟨"a", 2, 2⟩])] ∧
    alGet (add_bulk [("b", [⟨"b", 1, 1⟩])] [⟨"a", 2, 2⟩, ⟨"b", 3, 3⟩]) "b"
        = some [⟨"b", 3, 3⟩] ∧
    (⟨"b", 1, 1⟩ : DataPoint) ∉ ([⟨"b", 3, 3⟩] : List DataPoint) := by
  refine ⟨by decide, by decide, by decide⟩

/-- C8: `SnaphotableStorage::loadUnsafe` yields the series' points
(snapshot plus active) in timestamp-ascending order, and yields the empty
sequence for an absent key. -/
theorem snapshot_loadUnsafe_sorted (s : SnaphotableStorage) (k : String) :
    PtsSorted (s.loadUnsafe k) ∧
    (s.loadUnsafe k).Perm (ptsOf s.snapshot k ++ ptsOf s.active.map k) ∧
    (alGet s.snapshot k = none → alGet s.active.map k = none → s.loadUnsafe k = []) := by
  simp only [SnaphotableStorage.loadUnsafe]
  refine ⟨?_, ?_, ?_⟩
  · split
    · exact loadUnsafe_sorted _ _
    · split
      · exact loadUnsafe_sorted _ _
      · exact mergePoints_sorted _ _ (loadUnsafe_sorted _ _) (loadUnsafe_sorted _ _)
  · split
    · rename_i hsv
      have hsnap : ptsOf s.snapshot k = [] := by
        have h := (loadUnsafe_perm s.snapshot k).symm
        rw [hsv] at h
        exact h.eq_nil
      rw [hsnap, List.nil_append]
      exact loadUnsafe_perm _ _
    · split
      · rename_i hsv hav
        have hact : ptsOf s.active.map k = [] := by
          have h := (loadUnsafe_perm s.active.map k).symm
          rw [hav] at h
          exact h.eq_nil
        rw [hact, List.append_nil]
        exact loadUnsafe_perm _ _
      · exact List.Perm.trans (mergePoints_perm _ _)
          (List.Perm.append (loadUnsafe_perm _ _) (loadUnsafe_perm _ _))
  · intro hsnap hact
    have hsv : TiempoDB.loadUnsafe s.snapshot k = [] := by
      unfold TiempoDB.loadUnsafe
      rw [hsnap]
    have hav : TiempoDB.loadUnsafe s.active.map k = [] := by
      unfold TiempoDB.loadUnsafe
      rw [hact]
    rw [if_pos hsv]
    exact hav

/-- Witness for C8 at a concrete store: snapshot `[("a", [t=9, t=3])]`,
active `[("a", [t=5]), ("c", [t=7])]`; the read of `"a"` is sorted and a
permutation of both sides' points, and the absent key `"z"` reads
empty. -/
theorem snapshot_loadUnsafe_sorted_witness :
    (PtsSorted ((SnaphotableStorage.mk [("a", [⟨"a", 9, 1⟩, ⟨"a", 3, 2⟩])]
        ⟨[("a", [⟨"a", 5, 3⟩]), ("c", [⟨"c", 7, 4⟩])], 3⟩).loadUnsafe "a") ∧
      ((SnaphotableStorage.mk [("a", [⟨"a", 9, 1⟩, ⟨"a", 3, 2⟩])]
        ⟨[("a", [⟨"a", 5, 3⟩]), ("c", [⟨"c", 7, 4⟩])], 3⟩).loadUnsafe "a").Perm
        ([⟨"a", 9, 1⟩, ⟨"a", 3, 2⟩] ++ [⟨"a", 5, 3⟩])) ∧
    (SnaphotableStorage.mk [("a", [⟨"a", 9, 1⟩, ⟨"a", 3, 2⟩])]
        ⟨[("a", [⟨"a", 5, 3⟩]), ("c", [⟨"c", 7, 4⟩])], 3⟩).loadUnsafe "z" = [] := by
  refine ⟨⟨(snapshot_loadUnsafe_sorted _ "a").1, ?_⟩,
    (snapshot_loadUnsafe_sorted _ "z").2.2 rfl rfl⟩
  have h := (snapshot_loadUnsafe_sorted (SnaphotableStorage.mk
    [("a", [⟨"a", 9, 1⟩, ⟨"a", 3, 2⟩])]
    ⟨[("a", [⟨"a", 5, 3⟩]), ("c", [⟨"c", 7, 4⟩])], 3⟩) "a").2.1
  simpa [ptsOf, alGet] using h

/-! ## WAL file management (`src/wal.rs`: `roll_new_segment`,
`drop_pending`)

The filesystem is an association list from file names to byte contents;
`Path::join` with a relative component appends a separator. -/

abbrev FileSys := List (String × List Nat)

/-- Look a file up by name. -/
def fsLookup : FileSys → String → Option (List Nat)
  | [], _ => none
  | e :: es, k => if e.1 = k then some e.2 else fsLookup es k

/-- Model of `fs::remove_file`: errors (NotFound) when the file does not exist. -/
def fsRemove (fs : FileSys) (path : String) : Except Unit FileSys :=
  match fsLookup fs path with
  | none => .error ()
  | some _ => .ok (fs.filter (fun e => !(e.1 == path)))

/-- Model of `fs::rename`: errors when the source does not exist, replaces any
existing file at the destination. -/
def fsRename (fs : FileSys) (old new : String) : Except Unit FileSys :=
  match fsLookup fs old with
  | none => .error ()
  | some c => .ok ((fs.filter (fun e => !(e.1 == old || e.1 == new))) ++ [(new, c)])

/-- Model of `OpenOptions::new().create(true)...open`: creates an empty file if
the name is absent, keeps the contents otherwise. -/
def fsCreate (fs : FileSys) (path : String) : FileSys :=
  match fsLookup fs path with
  | some _ => fs
  | none => fs ++ [(path, [])]

/-- Model of `Path::join` with a relative component. -/
def pathJoin (base comp : String) : String := base ++ "/" ++ comp

/-- The `Wal` handle: the live file's name and the handle's seek
position (`log_position()` after `flush_and_sync`). -/
structure Wal where
  file_name : String
  pos : Nat
deriving DecidableEq, Repr

/-- Model of `Wal::drop_pending` (src/wal.rs lines 108-111):
`fs::remove_file(self.file_name.join(".pending_{position}"))?`.  Note
that the argument of `join` is the *literal* string
`".pending_\x7bposition\x7d"` (no `format!`), and `join` adds a path
separator. -/
def drop_pending (fs : FileSys) (w : Wal) (position : Nat) : Except Unit FileSys :=
  fsRemove fs (pathJoin w.file_name ".pending_\x7bposition\x7d")

/-- Model of `Wal::roll_new_segment` (src/wal.rs lines 90-106): take the current
log position `L`, rename the live file to `<path>.pending_<L>`
(`format!` interpolates here), open a fresh live file at `<path>`, and
return `L`. -/
def roll_new_segment (fs : FileSys) (w : Wal) : Except Unit (FileSys × Wal × Nat) :=
  let logPosition := w.pos
  let pendingName := w.file_name ++ ".pending_" ++ Nat.repr logPosition
  match fsRename fs w.file_name pendingName with
  | .error _ => .error ()
  | .ok fs1 => .ok (fsCreate fs1 w.file_name, { w with pos := 0 }, logPosition)

theorem fsLookup_append (l1 l2 : FileSys) (k : String) :
    fsLookup (l1 ++ l2) k
      = match fsLookup l1 k with
        | some v => some v
        | none => fsLookup l2 k := by
  induction l1 with
  | nil => simp [fsLookup]
  | cons e es ih =>
      by_cases h : e.1 = k
      · simp [fsLookup, h]
      · simp [fsLookup, h, ih]

theorem fsLookup_filter_none (fs : FileSys) (old new k : String)
    (h : k = old ∨ k = new) :
    fsLookup (fs.filter (fun e => !(e.1 == old || e.1 == new))) k = none := by
  induction fs with
  | nil => simp [fsLookup]
  | cons e es ih =>
      by_cases he : e.1 = old ∨ e.1 = new
      · have hcond : (!(e.1 == old || e.1 == new)) = false := by
          rcases he with he | he <;> simp [he]
        rw [List.filter_cons, hcond]
        simpa using ih
      · push_neg at he
        have hcond : (!(e.1 == old || e.1 == new)) = true := by
          simp [he.1, he.2]
        have hek : ¬ e.1 = k := by
          rcases h with rfl | rfl
          · exact he.1
          · exact he.2
        rw [List.filter_cons, hcond]
        simpa [fsLookup, hek] using ih

/-- C6 (amended): `roll_new_segment` takes no expected-position argument;
it renames the live file (contents intact) to `<path>.pending_<L>` where
`L` is the current log position, opens a new empty live file at
`<path>`, and returns `L` — not 0, unless the log position was 0. -/
theorem roll_new_segment_renames (fs : FileSys) (w : Wal) (c : List Nat)
    (hlive : fsLookup fs w.file_name = some c) :
    ∃ fs1 w1, roll_new_segment fs w = .ok (fs1, w1, w.pos) ∧
      fsLookup fs1 (w.file_name ++ ".pending_" ++ Nat.repr w.pos) = some c ∧
      fsLookup fs1 w.file_name = some [] ∧ w1.pos = 0 ∧ w1.file_name = w.file_name := by
  have hne : w.file_name ≠ w.file_name ++ ".pending_" ++ Nat.repr w.pos := by
    intro h
    have hlen := congrArg String.length h
    have h9 : (".pending_" : String).length = 9 := rfl
    rw [String.length_append, String.length_append, h9] at hlen
    omega
  set pend : String := w.file_name ++ ".pending_" ++ Nat.repr w.pos with hpend
  have hren : fsRename fs w.file_name pend
      = .ok ((fs.filter (fun e => !(e.1 == w.file_name || e.1 == pend))) ++ [(pend, c)]) := by
    unfold fsRename
    rw [hlive]
  have hlook_pend :
      fsLookup ((fs.filter (fun e => !(e.1 == w.file_name || e.1 == pend))) ++ [(pend, c)]) pend
        = some c := by
    rw [fsLookup_append, fsLookup_filter_none fs w.file_name pend pend (Or.inr rfl)]
    simp [fsLookup]
  have hlook_live :
      fsLookup ((fs.filter (fun e => !(e.1 == w.file_name || e.1 == pend))) ++ [(pend, c)])
        w.file_name = none := by
    rw [fsLookup_append, fsLookup_filter_none fs w.file_name pend w.file_name (Or.inl rfl)]
    simp [fsLookup, (Ne.symm hne : pend ≠ w.file_name)]
  refine ⟨fsCreate ((fs.filter (fun e => !(e.1 == w.file_name || e.1 == pend)))
      ++ [(pend, c)]) w.file_name, { w with pos := 0 }, ?_, ?_, ?_, rfl, rfl⟩
  · simp only [roll_new_segment]
    rw [← hpend, hren]
  · unfold fsCreate
    rw [hlook_live, fsLookup_append, hlook_pend]
  · unfold fsCreate
    rw [hlook_live, fsLookup_append, hlook_live]
    simp [fsLookup]

/-- Witness for C6 (amended) at a concrete one-file filesystem. -/
theorem roll_new_segment_renames_witness :
    ∃ fs1 w1,
      roll_new_segment [("wal", [1, 2, 3, 4, 5])] (Wal.mk "wal" 5) = .ok (fs1, w1, 5) ∧
      fsLookup fs1 ("wal" ++ ".pending_" ++ Nat.repr 5) = some [1, 2, 3, 4, 5] ∧
      fsLookup fs1 "wal" = some [] ∧ w1.pos = 0 ∧ w1.file_name = "wal" :=
  roll_new_segment_renames [("wal", [1, 2, 3, 4, 5])] (Wal.mk "wal" 5) [1, 2, 3, 4, 5] rfl

/-- Counterexample to C6 as stated: with log position 5 the call returns
5, not 0. -/
theorem roll_new_segment_renames_cex :
    roll_new_segment [("wal", [1, 2, 3, 4, 5])] (Wal.mk "wal" 5)
      = .ok ([("wal.pending_5", [1, 2, 3, 4, 5]), ("wal", [])], Wal.mk "wal" 0, 5) ∧
    (5 : Nat) ≠ 0 := by
  refine ⟨rfl, by decide⟩

/-- C5 is a code bug: `drop_pending` passes the literal string
`".pending_\x7bposition\x7d"` (missing `format!`) to `Path::join`, which
also inserts a path separator, so the pending segment
`<path>.pending_<p>` is never the file being removed; and a missing file
makes `fs::remove_file` return a NotFound error which `?` propagates, so
the call is not idempotent.  With `wal.pending_7` present, the call
errors instead of unlinking it; on an empty filesystem it errors instead
of succeeding. -/
theorem drop_pending_wrong_path :
    drop_pending [("wal.pending_7", [1])] (Wal.mk "wal" 0) 7 = .error () ∧
    pathJoin "wal" ".pending_\x7bposition\x7d" ≠ "wal.pending_7" ∧
    drop_pending [] (Wal.mk "wal" 0) 7 = .error () := by
  refine ⟨rfl, by decide, rfl⟩

/-! ## Partition manager (`src/partition.rs`)

Partition files live in one directory as `partition_<N>.data-tmp`,
`partition_<N>.data`, `partition_<N>.meta`; we model them as
(id, kind, content) triples where the content tag stands for the
serialized snapshot (the body written by `write_partition`, equal to the
`Partition` value saved by `save_meta` / reloaded by `load_meta`).  The
two `fail::fail_point!` hooks are the booleans `fm`
(`pm-roll-write-meta-step`) and `fr` (`pm-roll-rename-step`); general
recursion in `roll_new_partition` is fuelled. -/

inductive PKind where
  | tmp : PKind
  | data : PKind
  | meta : PKind
deriving DecidableEq, Repr

abbrev PFiles := List (Nat × PKind × String)

/-- Partition file lookup (`fs::try_exists` / reading the file). -/
def pfGet : PFiles → Nat → PKind → Option String
  | [], _, _ => none
  | e :: es, id, k => if e.1 = id ∧ e.2.1 = k then some e.2.2 else pfGet es id k

/-- Create or overwrite one partition file. -/
def pfPut : PFiles → Nat → PKind → String → PFiles
  | [], id, k, v => [(id, k, v)]
  | e :: es, id, k, v =>
      if e.1 = id ∧ e.2.1 = k then (id, k, v) :: es else e :: pfPut es id k v

/-- Model of `fs::remove_file` wrapped in `ignore_not_found`. -/
def pfRemoveOne (fs : PFiles) (id : Nat) (k : PKind) : PFiles :=
  fs.filter (fun e => !(e.1 == id && e.2.1 == k))

/-- Model of `PartitionManager::remove_partition_if_exists`. -/
def remove_partition_if_exists (fs : PFiles) (id : Nat) : PFiles :=
  pfRemoveOne (pfRemoveOne (pfRemoveOne fs id .tmp) id .data) id .meta

/-- Model of `PartitionManager` state: `last_partition_id` and the committed
partitions list (each partition named by its content tag). -/
structure PartitionManager where
  last_partition_id : Nat
  partitions : List String
deriving DecidableEq, Repr

/-- Model of `PartitionManager::try_recover` (src/partition.rs lines 207-223). -/
def try_recover (fs : PFiles) (id : Nat) : Bool × PFiles :=
  match pfGet fs id .meta with
  | none => (false, fs)
  | some _ =>
      match pfGet fs id .data with
      | some _ => (true, fs)
      | none =>
          match pfGet fs id .tmp with
          | some c => (true, pfPut (pfRemoveOne fs id .tmp) id .data c)
          | none => (false, fs)

inductive RollErr where
  | failpoint : RollErr
  | ioErr : RollErr
  | fuel : RollErr
deriving DecidableEq, Repr

/-- Steps 3-8 of the roll protocol: the `pm-roll-write-meta-step`
failpoint, `write_partition` to `.data-tmp`, `save_meta`, the
`pm-roll-rename-step` failpoint, and the `.data-tmp` → `.data` rename
followed by the bookkeeping updates. -/
def rollWrite (fm fr : Bool) (pm : PartitionManager) (fs : PFiles) (nid : Nat)
    (metrics : String) : PartitionManager × PFiles × Option RollErr :=
  if fm then (pm, fs, some .failpoint)
  else
    let fs2 := pfPut (pfPut fs nid .tmp metrics) nid .meta metrics
    if fr then (pm, fs2, some .failpoint)
    else
      match pfGet fs2 nid .tmp with
      | none => (pm, fs2, some .ioErr)
      | some c =>
          ({ last_partition_id := nid, partitions := pm.partitions ++ [metrics] },
            pfPut (pfRemoveOne fs2 nid .tmp) nid .data c, none)

/-- Model of `PartitionManager::roll_new_partition` (src/partition.rs lines
271-303), with fuel for the recovery recursion. -/
def roll_new_partition (fm fr : Bool) :
    Nat → PartitionManager → PFiles → String → PartitionManager × PFiles × Option RollErr
  | 0, pm, fs, _ => (pm, fs, some .fuel)
  | fuel + 1, pm, fs, metrics =>
      let nid := pm.last_partition_id + 1
      match pfGet fs nid .tmp with
      | some _ =>
          match try_recover fs nid with
          | (true, fs1) =>
              match pfGet fs1 nid .meta with
              | some pv =>
                  roll_new_partition fm fr fuel
                    { last_partition_id := nid, partitions := pm.partitions ++ [pv] }
                    fs1 metrics
              | none => (pm, fs1, some .ioErr)
          | (false, fs1) => rollWrite fm fr pm (remove_partition_if_exists fs1 nid) nid metrics
      | none => rollWrite fm fr pm fs nid metrics

theorem pfGet_put_same (fs : PFiles) (id : Nat) (k : PKind) (v : String) :
    pfGet (pfPut fs id k v) id k = some v := by
  induction fs with
  | nil => simp [pfPut, pfGet]
  | cons e es ih =>
      by_cases he : e.1 = id ∧ e.2.1 = k
      · simp [pfPut, pfGet, he]
      · simp only [pfPut, if_neg he]
        simp [pfGet, he, ih]

theorem pfGet_put_other (fs : PFiles) (id id2 : Nat) (k k2 : PKind) (v : String)
    (h : ¬ (id2 = id ∧ k2 = k)) :
    pfGet (pfPut fs id k v) id2 k2 = pfGet fs id2 k2 := by
  induction fs with
  | nil =>
      have : ¬ (id = id2 ∧ k = k2) := by tauto
      simp [pfPut, pfGet, this]
  | cons e es ih =>
      by_cases he : e.1 = id ∧ e.2.1 = k
      · have hne : ¬ (id = id2 ∧ k = k2) := by tauto
        have hne2 : ¬ (e.1 = id2 ∧ e.2.1 = k2) := by
          rcases he with ⟨h1, h2⟩
          intro hcon
          exact h ⟨by omega, by rw [← hcon.2, ← h2]⟩
        simp [pfPut, pfGet, he, hne, hne2]
      · simp only [pfPut, if_neg he]
        by_cases hk : e.1 = id2 ∧ e.2.1 = k2
        · simp [pfGet, hk]
        · simp [pfGet, hk, ih]

theorem pfGet_removeOne_same (fs : PFiles) (id : Nat) (k : PKind) :
    pfGet (pfRemoveOne fs id k) id k = none := by
  induction fs with
  | nil => simp [pfRemoveOne, pfGet]
  | cons e es ih =>
      by_cases he : e.1 = id ∧ e.2.1 = k
      · have hcond : (!(e.1 == id && e.2.1 == k)) = false := by simp [he.1, he.2]
        rw [pfRemoveOne, List.filter_cons, hcond]
        simpa [pfRemoveOne] using ih
      · have hcond : (!(e.1 == id && e.2.1 == k)) = true := by
          cases hb : (e.1 == id && e.2.1 == k)
          · rfl
          · exfalso
            rw [Bool.and_eq_true, beq_iff_eq, beq_iff_eq] at hb
            exact he hb
        rw [pfRemoveOne, List.filter_cons, hcond]
        simp only [if_true]
        rw [pfGet, if_neg he]
        simpa [pfRemoveOne] using ih

theorem pfGet_removeOne_other (fs : PFiles) (id id2 : Nat) (k k2 : PKind)
    (h : ¬ (id2 = id ∧ k2 = k)) :
    pfGet (pfRemoveOne fs id k) id2 k2 = pfGet fs id2 k2 := by
  induction fs with
  | nil => simp [pfRemoveOne, pfGet]
  | cons e es ih =>
      by_cases he : e.1 = id ∧ e.2.1 = k
      · have hcond : (!(e.1 == id && e.2.1 == k)) = false := by simp [he.1, he.2]
        rw [pfRemoveOne, List.filter_cons, hcond]
        have hne2 : ¬ (e.1 = id2 ∧ e.2.1 = k2) := by
          rcases he with ⟨h1, h2⟩
          intro hcon
          exact h ⟨by omega, by rw [← hcon.2, ← h2]⟩
        rw [pfGet, if_neg hne2] at *
        simpa [pfRemoveOne] using ih
      · have hcond : (!(e.1 == id && e.2.1 == k)) = true := by
          cases hb : (e.1 == id && e.2.1 == k)
          · rfl
          · exfalso
            rw [Bool.and_eq_true, beq_iff_eq, beq_iff_eq] at hb
            exact he hb
        rw [pfRemoveOne, List.filter_cons, hcond]
        simp only [if_true]
        rw [pfGet, pfGet]
        by_cases hk : e.1 = id2 ∧ e.2.1 = k2
        · rw [if_pos hk, if_pos hk]
        · rw [if_neg hk, if_neg hk]
          simpa [pfRemoveOne] using ih

theorem roll_step_clean (fm fr : Bool) (fuel : Nat) (pm : PartitionManager) (fs : PFiles)
    (m : String) (htmp : pfGet fs (pm.last_partition_id + 1) .tmp = none) :
    roll_new_partition fm fr (fuel + 1) pm fs m
      = rollWrite fm fr pm fs (pm.last_partition_id + 1) m := by
  simp only [roll_new_partition, htmp]

theorem roll_step_recover (fm fr : Bool) (fuel : Nat) (pm : PartitionManager) (fs : PFiles)
    (m c pv : String)
    (htmp : pfGet fs (pm.last_partition_id + 1) .tmp = some c)
    (hmeta : pfGet fs (pm.last_partition_id + 1) .meta = some pv)
    (hdata : pfGet fs (pm.last_partition_id + 1) .data = none) :
    roll_new_partition fm fr (fuel + 1) pm fs m
      = roll_new_partition fm fr fuel
          { last_partition_id := pm.last_partition_id + 1,
            partitions := pm.partitions ++ [pv] }
          (pfPut (pfRemoveOne fs (pm.last_partition_id + 1) .tmp)
            (pm.last_partition_id + 1) .data c) m := by
  have hrec : try_recover fs (pm.last_partition_id + 1)
      = (true, pfPut (pfRemoveOne fs (pm.last_partition_id + 1) .tmp)
          (pm.last_partition_id + 1) .data c) := by
    simp only [try_recover, hmeta, hdata, htmp]
  have hmeta2 : pfGet (pfPut (pfRemoveOne fs (pm.last_partition_id + 1) .tmp)
      (pm.last_partition_id + 1) .data c) (pm.last_partition_id + 1) .meta = some pv := by
    rw [pfGet_put_other _ _ _ _ _ _ (by simp), pfGet_removeOne_other _ _ _ _ _ (by simp)]
    exact hmeta
  simp only [roll_new_partition, htmp, hrec, hmeta2]

theorem rollWrite_fail_rename (pm : PartitionManager) (fs : PFiles) (nid : Nat) (m : String) :
    rollWrite false true pm fs nid m
      = (pm, pfPut (pfPut fs nid .tmp m) nid .meta m, some .failpoint) := rfl

theorem rollWrite_ok (pm : PartitionManager) (fs : PFiles) (nid : Nat) (m : String) :
    rollWrite false false pm fs nid m
      = ({ last_partition_id := nid, partitions := pm.partitions ++ [m] },
          pfPut (pfRemoveOne (pfPut (pfPut fs nid .tmp m) nid .meta m) nid .tmp) nid .data m,
          none) := by
  have hget : pfGet (pfPut (pfPut fs nid .tmp m) nid .meta m) nid .tmp = some m := by
    rw [pfGet_put_other _ _ _ _ _ _ (by simp), pfGet_put_same]
  simp only [rollWrite, hget]
  rfl

/-- C7: a roll that fails at the `pm-roll-rename-step` failpoint leaves
partition N+1 with `.meta` and `.data-tmp` but no `.data`; the next roll
(failpoints off) recovers N+1 — promoting `.data-tmp` to `.data` and
appending the recovered partition — and then commits the new partition
N+2, so the partitions list contains both. -/
theorem partition_roll_recovery (pm : PartitionManager) (fs : PFiles) (m1 m2 : String)
    (f1 f2 : Nat)
    (hclean1 : ∀ k, pfGet fs (pm.last_partition_id + 1) k = none)
    (hclean2 : ∀ k, pfGet fs (pm.last_partition_id + 2) k = none) :
    ∃ fs2 fs3,
      roll_new_partition false true (f1 + 1) pm fs m1 = (pm, fs2, some RollErr.failpoint) ∧
      pfGet fs2 (pm.last_partition_id + 1) PKind.meta = some m1 ∧
      pfGet fs2 (pm.last_partition_id + 1) PKind.tmp = some m1 ∧
      pfGet fs2 (pm.last_partition_id + 1) PKind.data = none ∧
      roll_new_partition false false (f2 + 2) pm fs2 m2
        = ({ last_partition_id := pm.last_partition_id + 2,
             partitions := pm.partitions ++ [m1, m2] }, fs3, none) ∧
      m1 ∈ pm.partitions ++ [m1, m2] ∧ m2 ∈ pm.partitions ++ [m1, m2] ∧
      pfGet fs3 (pm.last_partition_id + 1) PKind.data = some m1 ∧
      pfGet fs3 (pm.last_partition_id + 2) PKind.data = some m2 := by
  set N1 : Nat := pm.last_partition_id + 1 with hN1
  have hN2 : pm.last_partition_id + 2 = N1 + 1 := rfl
  set fs2 : PFiles := pfPut (pfPut fs N1 .tmp m1) N1 .meta m1 with hfs2
  have hfs2meta : pfGet fs2 N1 .meta = some m1 := pfGet_put_same _ _ _ _
  have hfs2tmp : pfGet fs2 N1 .tmp = some m1 := by
    rw [hfs2, pfGet_put_other _ _ _ _ _ _ (by simp), pfGet_put_same]
  have hfs2data : pfGet fs2 N1 .data = none := by
    rw [hfs2, pfGet_put_other _ _ _ _ _ _ (by simp),
      pfGet_put_other _ _ _ _ _ _ (by simp)]
    exact hclean1 .data
  set fs2r : PFiles := pfPut (pfRemoveOne fs2 N1 .tmp) N1 .data m1 with hfs2r
  have hfs2rdata : pfGet fs2r N1 .data = some m1 := pfGet_put_same _ _ _ _
  have hclean2' : ∀ k, pfGet fs2r (N1 + 1) k = none := by
    intro k
    rw [hfs2r, pfGet_put_other _ _ _ _ _ _ (by simp ; try omega),
      pfGet_removeOne_other _ _ _ _ _ (by simp ; try omega), hfs2,
      pfGet_put_other _ _ _ _ _ _ (by simp ; try omega),
      pfGet_put_other _ _ _ _ _ _ (by simp ; try omega)]
    rw [← hN2]
    exact hclean2 k
  set fs3 : PFiles :=
    pfPut (pfRemoveOne (pfPut (pfPut fs2r (N1 + 1) .tmp m2) (N1 + 1) .meta m2) (N1 + 1) .tmp)
      (N1 + 1) .data m2 with hfs3
  refine ⟨fs2, fs3, ?_, hfs2meta, hfs2tmp, hfs2data, ?_, by simp, by simp, ?_, ?_⟩
  · rw [roll_step_clean false true f1 pm fs m1 (hclean1 .tmp), rollWrite_fail_rename]
  · rw [roll_step_recover false false (f2 + 1) pm fs2 m2 m1 m1 hfs2tmp hfs2meta hfs2data]
    have hstep2 : roll_new_partition false false (f2 + 1)
        { last_partition_id := N1, partitions := pm.partitions ++ [m1] } fs2r m2
        = rollWrite false false { last_partition_id := N1, partitions := pm.partitions ++ [m1] }
            fs2r (N1 + 1) m2 :=
      roll_step_clean false false f2 _ fs2r m2 (hclean2' .tmp)
    rw [hstep2, rollWrite_ok]
    simp [hN2]
  · rw [hfs3, pfGet_put_other _ _ _ _ _ _ (by simp ; try omega),
      pfGet_removeOne_other _ _ _ _ _ (by simp ; try omega),
      pfGet_put_other _ _ _ _ _ _ (by simp ; try omega),
      pfGet_put_other _ _ _ _ _ _ (by simp ; try omega)]
    exact hfs2rdata
  · rw [hN2, hfs3, pfGet_put_same]

/-- Witness for C7 from the empty manager over an empty directory. -/
theorem partition_roll_recovery_witness :
    ∃ fs2 fs3,
      roll_new_partition false true 1 (PartitionManager.mk 0 []) [] "first"
        = (PartitionManager.mk 0 [], fs2, some RollErr.failpoint) ∧
      pfGet fs2 1 PKind.meta = some "first" ∧
      pfGet fs2 1 PKind.tmp = some "first" ∧
      pfGet fs2 1 PKind.data = none ∧
      roll_new_partition false false 2 (PartitionManager.mk 0 []) fs2 "second"
        = (PartitionManager.mk 2 ["first", "second"], fs3, none) ∧
      "first" ∈ ["first", "second"] ∧ "second" ∈ ["first", "second"] ∧
      pfGet fs3 1 PKind.data = some "first" ∧
      pfGet fs3 2 PKind.data = some "second" :=
  partition_roll_recovery (PartitionManager.mk 0 []) [] "first" "second" 0 0
    (fun _ => rfl) (fun _ => rfl)

/-! ## Line-protocol parser (`src/protocol.rs`)

Positions are stored in `KV` as `u16` (`% 65536`) and the series-name
length as `u8` (`% 256`), as in the source; the scanning loops are
modelled as structural recursion over the remaining suffix together with
the absolute position. -/

def COMMA : Nat := 44

def EQUALS : Nat := 61

def SPACE : Nat := 32

/-- Model of `KV`: start/end/divider offsets of one `key=value` pair (u16). -/
structure KV where
  start : Nat
  endp : Nat
  divider : Nat
deriving DecidableEq, Repr

/-- Model of `KV::new_kv_from`. -/
def KV.new_kv_from (position : Nat) : KV :=
  { start := position % 65536, endp := 0, divider := 0 }

/-- Model of `KV::is_complete`. -/
def KV.is_complete (kv : KV) : Bool :=
  kv.start != 0 && kv.endp != 0 && kv.divider != 0

/-- Model of `Line`: the copied bytes plus precomputed boundaries. -/
structure Line where
  data : List Nat
  series_name_len : Nat
  tags : List KV
  fields : List KV
  timestamp : Nat
deriving DecidableEq, Repr

/-- The series-name loop of `Line::parse` (src/protocol.rs lines
148-153): stop at the first comma or space (returning the stop position
and the remaining suffix), fail on an equals sign. -/
def nameScan : List Nat → Nat → Option (Nat × List Nat)
  | [], pos => some (pos, [])
  | b :: rest, pos =>
      if b = COMMA ∨ b = SPACE then some (pos, b :: rest)
      else if b = EQUALS then none
      else nameScan rest (pos + 1)

/-- Model of `Line::parse_keyvalues` (src/protocol.rs lines 82-109), returning
the collected pairs, the stop position and the remaining suffix. -/
def parse_keyvalues (suffix : List Nat) (pos : Nat) (current : KV) (acc : List KV) :
    Except Unit (List KV × Nat × List Nat) :=
  match suffix with
  | [] =>
      let cur := { current with endp := pos % 65536 }
      if cur.is_complete then .ok (acc ++ [cur], pos, []) else .error ()
  | b :: rest =>
      if b = SPACE then
        let cur := { current with endp := pos % 65536 }
        if cur.is_complete then .ok (acc ++ [cur], pos, b :: rest) else .error ()
      else if b = EQUALS then
        parse_keyvalues rest (pos + 1) { current with divider := pos % 65536 } acc
      else if b = COMMA then
        let cur := { current with endp := pos % 65536 }
        if cur.is_complete then
          parse_keyvalues rest (pos + 1) (KV.new_kv_from (pos + 1)) (acc ++ [cur])
        else .error ()
      else parse_keyvalues rest (pos + 1) current acc

/-- The timestamp loop of `Line::parse` (src/protocol.rs lines 189-192):
consume ASCII digits, accumulating `timestamp * 10 + digit` in a u64. -/
def tsScan : List Nat → Nat → Nat → Nat × Nat × List Nat
  | [], pos, ts => (ts, pos, [])
  | b :: rest, pos, ts =>
      if 48 ≤ b ∧ b ≤ 57 then tsScan rest (pos + 1) ((ts * 10 + (b - 48)) % 2 ^ 64)
      else (ts, pos, b :: rest)

/-- Model of `Line::parse` from the position after the series name and optional
tag set (src/protocol.rs lines 168-205): mandatory space, field set,
mandatory space, at least one timestamp digit — and no check that the
input ends there. -/
def parseAfterTags (line : List Nat) (snl : Nat) (tags : List KV) (pos : Nat)
    (rem : List Nat) : Option Line :=
  match rem with
  | [] => none
  | b :: rest =>
      if b ≠ SPACE then none
      else
        match parse_keyvalues rest (pos + 1) (KV.new_kv_from (pos + 1)) [] with
        | .error _ => none
        | .ok (fields, pos2, rem2) =>
            match rem2 with
            | [] => none
            | b2 :: rest2 =>
                if b2 ≠ SPACE then none
                else
                  match tsScan rest2 (pos2 + 1) 0 with
                  | (timestamp, pos3, _) =>
                      if pos2 + 1 = pos3 then none
                      else
                        some { data := line, series_name_len := snl % 256, tags := tags,
                               fields := fields, timestamp := timestamp }

/-- Model of `Line::parse` (src/protocol.rs lines 142-205). -/
def Line.parse (line : List Nat) : Option Line :=
  match nameScan line 0 with
  | none => none
  | some (pos, rem) =>
      match rem with
      | [] => none
      | b :: rest =>
          if b = COMMA then
            match parse_keyvalues rest (pos + 1) (KV.new_kv_from (pos + 1)) [] with
            | .error _ => none
            | .ok (tags, pos2, rem2) => parseAfterTags line pos tags pos2 rem2
          else parseAfterTags line pos [] pos (b :: rest)

/-- A byte that is none of comma, space, equals (legal inside names,
keys and values). -/
abbrev plainByte (b : Nat) : Prop := b ≠ COMMA ∧ b ≠ SPACE ∧ b ≠ EQUALS

/-- An ASCII digit. -/
abbrev isDigit (b : Nat) : Prop := 48 ≤ b ∧ b ≤ 57

/-- One rendered `key=value` pair. -/
def renderKV (kv : List Nat × List Nat) : List Nat := kv.1 ++ EQUALS :: kv.2

/-- Rendered pairs joined by commas. -/
def renderKVs : List (List Nat × List Nat) → List Nat
  | [] => []
  | [kv] => renderKV kv
  | kv :: kv2 :: rest => renderKV kv ++ COMMA :: renderKVs (kv2 :: rest)

/-- A grammatically shaped line: name, optional comma-led tag set, space,
field set, space, then `tail` (the timestamp digits and anything
after). -/
def renderLine (name : List Nat) (tags fields : List (List Nat × List Nat))
    (tail : List Nat) : List Nat :=
  name ++ (if tags.isEmpty then [] else COMMA :: renderKVs tags)
    ++ SPACE :: renderKVs fields ++ SPACE :: tail

/-- The numeric value of a digit run. -/
def natOfDigits (ds : List Nat) : Nat := ds.foldl (fun a d => a * 10 + (d - 48)) 0

@[simp] theorem length_renderKV (kv : List Nat × List Nat) :
    (renderKV kv).length = kv.1.length + 1 + kv.2.length := by
  simp [renderKV]; omega

theorem length_renderKVs_cons (kv kv2 : List Nat × List Nat)
    (rest : List (List Nat × List Nat)) :
    (renderKVs (kv :: kv2 :: rest)).length
      = (renderKV kv).length + 1 + (renderKVs (kv2 :: rest)).length := by
  simp [renderKVs]; omega

theorem nameScan_plain (n : List Nat) :
    ∀ (pos : Nat) (s : List Nat), (∀ b ∈ n, plainByte b) →
      nameScan (n ++ s) pos = nameScan s (pos + n.length) := by
  induction n with
  | nil => intro pos s _; simp
  | cons b bs ih =>
      intro pos s h
      obtain ⟨h1, h2, h3⟩ := h b (by simp)
      rw [List.cons_append, nameScan, if_neg (by tauto), if_neg h3,
        ih (pos + 1) s (fun x hx => h x (by simp [hx]))]
      congr 1
      simp
      omega

theorem pkv_plain (k : List Nat) :
    ∀ (pos : Nat) (cur : KV) (acc : List KV) (s : List Nat), (∀ b ∈ k, plainByte b) →
      parse_keyvalues (k ++ s) pos cur acc = parse_keyvalues s (pos + k.length) cur acc := by
  induction k with
  | nil => intro pos cur acc s _; simp
  | cons b bs ih =>
      intro pos cur acc s h
      obtain ⟨h1, h2, h3⟩ := h b (by simp)
      rw [List.cons_append, parse_keyvalues, if_neg h2, if_neg h3, if_neg h1,
        ih (pos + 1) cur acc s (fun x hx => h x (by simp [hx]))]
      congr 1
      simp
      omega

/-- Accumulating the digits of the timestamp loop. -/
def foldTs (ds : List Nat) (acc : Nat) : Nat :=
  ds.foldl (fun a d => (a * 10 + (d - 48)) % 2 ^ 64) acc

theorem tsScan_digits (ds : List Nat) :
    ∀ (pos acc : Nat) (trail : List Nat),
      (∀ b ∈ ds, isDigit b) → (∀ b ∈ trail, ¬ isDigit b) →
      tsScan (ds ++ trail) pos acc = (foldTs ds acc, pos + ds.length, trail) := by
  induction ds with
  | nil =>
      intro pos acc trail _ htrail
      cases trail with
      | nil => simp [tsScan, foldTs]
      | cons t ts =>
          have ht := htrail t (by simp)
          rw [List.nil_append, tsScan, if_neg (by simpa [isDigit] using ht)]
          simp [foldTs]
  | cons d ds ih =>
      intro pos acc trail hds htrail
      have hd := hds d (by simp)
      rw [List.cons_append, tsScan, if_pos (by simpa [isDigit] using hd),
        ih (pos + 1) _ trail (fun x hx => hds x (by simp [hx])) htrail]
      refine congrArg₂ Prod.mk rfl (congrArg₂ Prod.mk ?_ rfl)
      simp
      omega

theorem foldTs_mod (ds : List Nat) :
    ∀ acc : Nat, foldTs ds (acc % 2 ^ 64)
      = (ds.foldl (fun a d => a * 10 + (d - 48)) acc) % 2 ^ 64 := by
  induction ds with
  | nil => intro acc; simp [foldTs]
  | cons d ds ih =>
      intro acc
      rw [foldTs, List.foldl_cons]
      have hstep : (acc % 2 ^ 64 * 10 + (d - 48)) % 2 ^ 64
          = (acc * 10 + (d - 48)) % 2 ^ 64 := by
        have hM : (2 : Nat) ^ 64 = 18446744073709551616 := by norm_num
        rw [hM]
        omega
      rw [hstep]
      have := ih (acc * 10 + (d - 48))
      rw [foldTs] at this
      rw [List.foldl_cons]
      exact this

theorem foldTs_eq_natOfDigits (ds : List Nat) :
    foldTs ds 0 = natOfDigits ds % 2 ^ 64 := by
  have h := foldTs_mod ds 0
  simpa [natOfDigits] using h

/-- Running `parse_keyvalues` on a rendered nonempty `key=value` list followed by
a space (or the end of input) succeeds and stops at the space. -/
theorem pkv_render (kvs : List (List Nat × List Nat)) :
    ∀ (pos : Nat) (acc : List KV) (s : List Nat),
      (∀ kv ∈ kvs, (∀ b ∈ kv.1, plainByte b) ∧ (∀ b ∈ kv.2, plainByte b)) →
      1 ≤ pos → pos + (renderKVs kvs).length < 65536 →
      (s = [] ∨ ∃ s2, s = SPACE :: s2) →
      kvs ≠ [] →
      ∃ out, parse_keyvalues (renderKVs kvs ++ s) pos (KV.new_kv_from pos) acc
        = .ok (out, pos + (renderKVs kvs).length, s) := by
  induction kvs with
  | nil => intro _ _ _ _ _ _ _ hne; exact absurd rfl hne
  | cons kv rest ih =>
      intro pos acc s hclean hpos hb hs _
      obtain ⟨hk, hv⟩ := hclean kv (by simp)
      cases rest with
      | nil =>
          have hstop : pos + (renderKVs [kv]).length = pos + kv.1.length + 1 + kv.2.length := by
            simp [renderKVs]
            omega
          have hb2 : pos + kv.1.length + 1 + kv.2.length < 65536 := by
            rw [← hstop]; exact hb
          rw [hstop]
          have hshape : renderKVs [kv] ++ s = kv.1 ++ (EQUALS :: (kv.2 ++ s)) := by
            simp [renderKVs, renderKV]
          rw [hshape, pkv_plain kv.1 _ _ _ _ hk, parse_keyvalues,
            if_neg (by decide : ¬ (EQUALS = SPACE)), if_pos rfl,
            pkv_plain kv.2 _ _ _ _ hv]
          have m1 : pos % 65536 = pos := Nat.mod_eq_of_lt (by omega)
          have m2 : (pos + kv.1.length) % 65536 = pos + kv.1.length :=
            Nat.mod_eq_of_lt (by omega)
          have m3 : (pos + kv.1.length + 1 + kv.2.length) % 65536
              = pos + kv.1.length + 1 + kv.2.length := Nat.mod_eq_of_lt (by omega)
          have hcomp : ∀ kvx : KV, kvx.start = pos → kvx.endp = pos + kv.1.length + 1 + kv.2.length
              → kvx.divider = pos + kv.1.length → kvx.is_complete = true := by
            intro kvx e1 e2 e3
            simp only [KV.is_complete, e1, e2, e3, Bool.and_eq_true, bne_iff_ne, ne_eq]
            omega
          rcases hs with rfl | ⟨s2, rfl⟩
          · refine ⟨acc ++ [⟨pos, pos + kv.1.length + 1 + kv.2.length, pos + kv.1.length⟩], ?_⟩
            simp only [parse_keyvalues, KV.new_kv_from, m1, m2, m3]
            rw [if_pos (hcomp _ rfl rfl rfl)]
          · refine ⟨acc ++ [⟨pos, pos + kv.1.length + 1 + kv.2.length, pos + kv.1.length⟩], ?_⟩
            simp only [parse_keyvalues, KV.new_kv_from, m1, m2, m3]
            rw [if_pos trivial, if_pos (hcomp _ rfl rfl rfl)]
      | cons kv2 rest2 =>
          have hstop : pos + (renderKVs (kv :: kv2 :: rest2)).length
              = pos + kv.1.length + 1 + kv.2.length + 1 + (renderKVs (kv2 :: rest2)).length := by
            rw [length_renderKVs_cons]
            simp
            omega
          have hb2 : pos + kv.1.length + 1 + kv.2.length + 1
              + (renderKVs (kv2 :: rest2)).length < 65536 := by
            rw [← hstop]; exact hb
          rw [hstop]
          have hshape : renderKVs (kv :: kv2 :: rest2) ++ s
              = kv.1 ++ (EQUALS :: (kv.2 ++ (COMMA :: (renderKVs (kv2 :: rest2) ++ s)))) := by
            simp [renderKVs, renderKV]
          rw [hshape, pkv_plain kv.1 _ _ _ _ hk, parse_keyvalues,
            if_neg (by decide : ¬ (EQUALS = SPACE)), if_pos rfl,
            pkv_plain kv.2 _ _ _ _ hv, parse_keyvalues,
            if_neg (by decide : ¬ (COMMA = SPACE)), if_neg (by decide : ¬ (COMMA = EQUALS)),
            if_pos rfl]
          have m1 : pos % 65536 = pos := Nat.mod_eq_of_lt (by omega)
          have m2 : (pos + kv.1.length) % 65536 = pos + kv.1.length :=
            Nat.mod_eq_of_lt (by omega)
          have m3 : (pos + kv.1.length + 1 + kv.2.length) % 65536
              = pos + kv.1.length + 1 + kv.2.length := Nat.mod_eq_of_lt (by omega)
          have hcomp : ∀ kvx : KV, kvx.start = pos → kvx.endp = pos + kv.1.length + 1 + kv.2.length
              → kvx.divider = pos + kv.1.length → kvx.is_complete = true := by
            intro kvx e1 e2 e3
            simp only [KV.is_complete, e1, e2, e3, Bool.and_eq_true, bne_iff_ne, ne_eq]
            omega
          simp only [KV.new_kv_from, m1, m2, m3]
          rw [if_pos (hcomp _ rfl rfl rfl)]
          obtain ⟨out, hout⟩ := ih (pos + kv.1.length + 1 + kv.2.length + 1)
            (acc ++ [⟨pos, pos + kv.1.length + 1 + kv.2.length, pos + kv.1.length⟩]) s
            (fun x hx => hclean x (by simp [hx])) (by omega) (by omega) hs (by simp)
          refine ⟨out, ?_⟩
          rw [← hout]
          rfl

/-- From the space before the field set onwards, a rendered field set,
space, digit run and non-digit trailing bytes parse successfully with the
digit run (mod `2^64`) as the timestamp. -/
theorem parseAfterTags_render (line : List Nat) (snl : Nat) (tagsKV : List KV)
    (fields : List (List Nat × List Nat)) (pos2 : Nat) (ds trail : List Nat)
    (hfields : ∀ kv ∈ fields, (∀ b ∈ kv.1, plainByte b) ∧ (∀ b ∈ kv.2, plainByte b))
    (hfne : fields ≠ [])
    (hdsne : ds ≠ []) (hds : ∀ b ∈ ds, isDigit b)
    (htrail : ∀ b ∈ trail, ¬ isDigit b)
    (hbound : pos2 + 1 + (renderKVs fields).length < 65536) :
    ∃ r : Line,
      parseAfterTags line snl tagsKV pos2
          (SPACE :: (renderKVs fields ++ (SPACE :: (ds ++ trail)))) = some r ∧
      r.timestamp = natOfDigits ds % 2 ^ 64 ∧ r.tags = tagsKV ∧ r.data = line := by
  obtain ⟨out, hout⟩ := pkv_render fields (pos2 + 1) [] (SPACE :: (ds ++ trail)) hfields
    (by omega) (by omega) (Or.inr ⟨ds ++ trail, rfl⟩) hfne
  have hdslen : 0 < ds.length := List.length_pos.2 hdsne
  have htsi := tsScan_digits ds (pos2 + 1 + (renderKVs fields).length + 1) 0 trail hds htrail
  have hnostop : ¬ (pos2 + 1 + (renderKVs fields).length + 1
      = pos2 + 1 + (renderKVs fields).length + 1 + ds.length) := by omega
  refine ⟨⟨line, snl % 256, tagsKV, out, foldTs ds 0⟩, ?_,
    foldTs_eq_natOfDigits ds, rfl, rfl⟩
  simp [parseAfterTags, hout, htsi, hnostop]

/-- C10: a grammatically valid line (name, optional tag set, field set)
whose timestamp digit run is followed by arbitrary non-digit trailing
bytes still parses; the timestamp is the value of the leading digit run
and the trailing bytes are silently ignored. -/
theorem line_parse_ignores_trailing (name : List Nat) (tags fields : List (List Nat × List Nat))
    (ds trail : List Nat)
    (hname : ∀ b ∈ name, plainByte b)
    (htags : ∀ kv ∈ tags, (∀ b ∈ kv.1, plainByte b) ∧ (∀ b ∈ kv.2, plainByte b))
    (hfields : ∀ kv ∈ fields, (∀ b ∈ kv.1, plainByte b) ∧ (∀ b ∈ kv.2, plainByte b))
    (hfne : fields ≠ [])
    (hdsne : ds ≠ []) (hds : ∀ b ∈ ds, isDigit b)
    (htrail : ∀ b ∈ trail, ¬ isDigit b)
    (hlen : (renderLine name tags fields (ds ++ trail)).length < 65536)
    (hval : natOfDigits ds < 2 ^ 64) :
    ∃ r : Line, Line.parse (renderLine name tags fields (ds ++ trail)) = some r ∧
      r.timestamp = natOfDigits ds := by
  cases tags with
  | nil =>
      have hshape : renderLine name [] fields (ds ++ trail)
          = name ++ (SPACE :: (renderKVs fields ++ (SPACE :: (ds ++ trail)))) := by
        simp [renderLine]
      have hbound : name.length + 1 + (renderKVs fields).length < 65536 := by
        rw [hshape] at hlen
        simp at hlen
        omega
      obtain ⟨r, hr, hts, _, _⟩ := parseAfterTags_render
        (renderLine name [] fields (ds ++ trail)) name.length [] fields name.length ds trail
        hfields hfne hdsne hds htrail (by omega)
      have hns : nameScan (name ++ (SPACE :: (renderKVs fields ++ (SPACE :: (ds ++ trail))))) 0
          = some (name.length, SPACE :: (renderKVs fields ++ (SPACE :: (ds ++ trail)))) := by
        rw [nameScan_plain name 0 _ hname, nameScan, if_pos (Or.inr rfl)]
        simp
      refine ⟨r, ?_, by rw [hts]; exact Nat.mod_eq_of_lt hval⟩
      conv_lhs => rw [hshape]
      have hSC : ¬ (SPACE = COMMA) := by decide
      rw [Line.parse]
      simp only [hns, hSC, if_false]
      rw [← hshape]
      exact hr
  | cons t ts =>
      have hshape : renderLine name (t :: ts) fields (ds ++ trail)
          = name ++ (COMMA :: (renderKVs (t :: ts)
              ++ (SPACE :: (renderKVs fields ++ (SPACE :: (ds ++ trail)))))) := by
        simp [renderLine]
      have hbound : name.length + 1 + (renderKVs (t :: ts)).length + 1
          + (renderKVs fields).length < 65536 := by
        rw [hshape] at hlen
        simp at hlen
        omega
      obtain ⟨outT, houtT⟩ := pkv_render (t :: ts) (name.length + 1) []
        (SPACE :: (renderKVs fields ++ (SPACE :: (ds ++ trail)))) htags
        (by omega) (by omega) (Or.inr ⟨_, rfl⟩) (by simp)
      obtain ⟨r, hr, hts, _, _⟩ := parseAfterTags_render
        (renderLine name (t :: ts) fields (ds ++ trail)) name.length outT fields
        (name.length + 1 + (renderKVs (t :: ts)).length) ds trail
        hfields hfne hdsne hds htrail (by omega)
      have hns : nameScan (name ++ (COMMA :: (renderKVs (t :: ts)
          ++ (SPACE :: (renderKVs fields ++ (SPACE :: (ds ++ trail))))))) 0
          = some (name.length, COMMA :: (renderKVs (t :: ts)
              ++ (SPACE :: (renderKVs fields ++ (SPACE :: (ds ++ trail)))))) := by
        rw [nameScan_plain name 0 _ hname, nameScan, if_pos (Or.inl rfl)]
        simp
      refine ⟨r, ?_, by rw [hts]; exact Nat.mod_eq_of_lt hval⟩
      conv_lhs => rw [hshape]
      rw [Line.parse]
      simp only [hns, if_pos rfl, houtT]
      rw [← hshape]
      exact hr

/-- Witness for C10: `weather,location=us temperature=82 99xyz` parses
with timestamp 99 although the grammar ends at the digits. -/
theorem line_parse_ignores_trailing_witness :
    ∃ r : Line,
      Line.parse (renderLine [119, 101] [([108], [117])] [([116], [56, 50])]
          ([57, 57] ++ [120, 121, 122])) = some r ∧
      r.timestamp = natOfDigits [57, 57] :=
  line_parse_ignores_trailing [119, 101] [([108], [117])] [([116], [56, 50])]
    [57, 57] [120, 121, 122]
    (by decide) (by decide) (by decide) (by decide) (by decide) (by decide)
    (by decide) (by decide) (by decide)

end TiempoDB
